import Mathlib

/-!
Verification of the session-orchestration core of the crystal repository.

The definitions below are shallow embeddings of the TypeScript sources:
`prpGenerationService.ts` (streaming JSON-line parser, timeout policy, close
handler, progress telemetry, cancellation, fallback generation) and
`worktreeNameGenerator.ts` (unique branch-name allocation).  Components whose
implementation is absent from the source tree (SessionManager, WorktreeManager)
are modelled from the specification, as marked in their doc comments.

Strings are embedded as `List Char`; the impure pieces of the code (wall-clock
timestamps inserted by `postProcessResult`/`enhanceWithSimpleLogic`) are
passed in as parameters.
-/

namespace Crystal

/-! ## Definitions: streaming newline-delimited parser (stdout data handler)

The handler keeps a string buffer `jsonBuffer`, appends each chunk, splits on
`'\n'` and keeps the final (possibly incomplete) segment as the new buffer:
`const lines = jsonBuffer.split('\n'); jsonBuffer = lines.pop() || '';`.
-/

/-- Split a character list at every newline, in the manner of JavaScript
`String.prototype.split('\n')`: the result is always nonempty, and a trailing
newline yields a trailing empty segment. -/
def splitNl : List Char → List (List Char)
  | [] => [[]]
  | c :: rest =>
    if c = '\n' then [] :: splitNl rest
    else
      match splitNl rest with
      | [] => [[c]]
      | l :: ls => (c :: l) :: ls

/-- The last segment of a split result (the JavaScript `lines.pop() || ''`). -/
def lastSegD : List (List Char) → List Char
  | [] => []
  | [l] => l
  | _ :: l :: ls => lastSegD (l :: ls)

/-- Prepend a pending partial segment onto the head of a split result. -/
def consHead (p : List Char) : List (List Char) → List (List Char)
  | [] => [p]
  | l :: ls => (p ++ l) :: ls

/-- One `data` event of the stdout handler: append the chunk to the buffer,
split on newlines, emit every complete line, retain the trailing segment. -/
def feed (buf chunk : List Char) : List (List Char) × List Char :=
  let segs := splitNl (buf ++ chunk)
  (segs.dropLast, lastSegD segs)

/-- Folding step for a sequence of `data` events: emitted lines accumulate,
the buffer is threaded through. -/
def feedStep (st : List (List Char) × List Char) (chunk : List Char) :
    List (List Char) × List Char :=
  (st.1 ++ (feed st.2 chunk).1, (feed st.2 chunk).2)

/-- Feeding a whole sequence of chunks from an initially empty buffer. -/
def feedAll (chunks : List (List Char)) : List (List Char) × List Char :=
  chunks.foldl feedStep ([], [])

/-- JavaScript whitespace for `String.prototype.trim` (the characters the
source's payloads can contain). -/
def isJsWhitespace (c : Char) : Bool := c = ' ' || c = '\n' || c = '\t' || c = '\r'

/-- JavaScript `String.prototype.trim`. -/
def trimChars (l : List Char) : List Char :=
  ((l.dropWhile isJsWhitespace).reverse.dropWhile isJsWhitespace).reverse

/-- The records the stdout handler decodes from the emitted lines: blank lines
are skipped (`if (!line.trim()) continue`), each remaining line is tentatively
parsed (`JSON.parse` in a try/catch), and lines that fail to parse are
silently ignored. -/
def decodedRecords {α : Type} (parse : List Char → Option α)
    (lines : List (List Char)) : List α :=
  lines.filterMap (fun l => if trimChars l = [] then none else parse l)

/-! ## Definitions: timeout policy (part_005 `enhanceWithClaudeStreaming`)

`silenceTimeout` is re-armed to fire `MAX_SILENCE_MS` after every stdout
`data` event (and once at spawn); `totalTimeout` is armed once at spawn for
`MAX_TOTAL_TIME_MS` and never re-armed.  Whichever fires first kills the
process. -/

def MAX_SILENCE_MS : Nat := 300000

def MAX_TOTAL_TIME_MS : Nat := 3600000

/-- Termination time of the run, given the arrival times of the stdout chunks
(in ms since spawn, in arrival order).  `last` is the time of the most recent
silence-timer reset.  A chunk arriving before the current kill deadline
re-arms the silence timer to its own arrival time; a chunk listed after the
deadline never happens (the process is already dead), so the deadline stands. -/
def killTimeFrom (last : Nat) : List Nat → Nat
  | [] => min (last + MAX_SILENCE_MS) MAX_TOTAL_TIME_MS
  | t :: ts =>
    if t < min (last + MAX_SILENCE_MS) MAX_TOTAL_TIME_MS then killTimeFrom t ts
    else min (last + MAX_SILENCE_MS) MAX_TOTAL_TIME_MS

/-- Termination time from spawn (the silence timer is first armed at spawn). -/
def killTime (chunkTimes : List Nat) : Nat := killTimeFrom 0 chunkTimes

/-! ## Definitions: close handler outcome (`claudeProcess.on('close', ...)`) -/

/-- Outcome of a run as resolved by the close handler. -/
inductive RunOutcome where
  | completed (text : List Char)
  | completedPartial (text : List Char)
  | failedFallback
deriving DecidableEq

/-- The close handler: exit code `0` resolves with the accumulated (trimmed)
text; exit code `null` or `-15` (SIGTERM, i.e. a forced kill) resolves with
the partial text when there is any and otherwise falls back to the non-agent
path; any other exit code falls back. -/
def closeOutcome (code : Option Int) (output : List Char) : RunOutcome :=
  if code = some 0 then .completed (trimChars output)
  else if code = none ∨ code = some (-15) then
    if trimChars output = [] then .failedFallback
    else .completedPartial (trimChars output)
  else .failedFallback

/-! ## Definitions: unique worktree-name generation (`worktreeNameGenerator.ts`) -/

def digitChar : Nat → Char
  | 0 => '0'
  | 1 => '1'
  | 2 => '2'
  | 3 => '3'
  | 4 => '4'
  | 5 => '5'
  | 6 => '6'
  | 7 => '7'
  | 8 => '8'
  | _ => '9'

def charToDigit (c : Char) : Nat :=
  if c = '0' then 0
  else if c = '1' then 1
  else if c = '2' then 2
  else if c = '3' then 3
  else if c = '4' then 4
  else if c = '5' then 5
  else if c = '6' then 6
  else if c = '7' then 7
  else if c = '8' then 8
  else 9

/-- Decimal rendering of a natural number, with structural fuel
(`fuel ≥ n + 1` always suffices). -/
def natReprAux : Nat → Nat → List Char
  | 0, _ => []
  | fuel + 1, n =>
    if n < 10 then [digitChar n]
    else natReprAux fuel (n / 10) ++ [digitChar (n % 10)]

/-- Decimal rendering of a natural number (JavaScript template `${counter}`). -/
def natRepr (n : Nat) : List Char := natReprAux (n + 1) n

/-- Decimal evaluation, inverse of `natRepr`. -/
def reprVal (l : List Char) : Nat := l.foldl (fun acc c => acc * 10 + charToDigit c) 0

/-- The collision-suffixed candidate `` `${baseName}-${counter}` ``. -/
def candidateName (base : List Char) (counter : Nat) : List Char :=
  base ++ '-' :: natRepr counter

/-- The `while (await this.worktreeExists(worktreesPath, uniqueName))` loop of
`generateUniqueWorktreeName`, with fuel (the source loop is unbounded; fuel
`existing.length + 2` provably suffices, see `worktreeNameLoop_not_mem`). -/
def worktreeNameLoop (existing : List (List Char)) (base : List Char) :
    List Char → Nat → Nat → List Char
  | current, _, 0 => current
  | current, counter, fuel + 1 =>
    if current ∈ existing then
      worktreeNameLoop existing base (candidateName base counter) (counter + 1) fuel
    else current

/-- `generateUniqueWorktreeName`: start from the base name with counter 1 and
suffix an incrementing counter until the name is free among the existing
worktree directories. -/
def generateUniqueWorktreeName (existing : List (List Char)) (base : List Char) :
    List Char :=
  worktreeNameLoop existing base base 1 (existing.length + 2)

/-! ## Definitions: progress telemetry -/

/-- The in-run progress formula
`Math.floor(Math.min(10 + messageCount / 2.3, 80))`. -/
def progressFormula (messageCount : Nat) : Nat :=
  min (10 + messageCount * 10 / 23) 80

/-- The progress value attached to the `finalizing` event emitted on a
`result` message. -/
def finalizingProgress : Nat := 90

/-- Classification of the terminal event of a streaming run. -/
inductive CloseKind where
  | success
  | forcedKill
  | nonzeroExit
  | spawnError
deriving DecidableEq

/-- The progress value emitted by the terminal handler: `100` on clean exit,
nothing at the close of a forced kill (code `null`/`-15`), and `0` on a
non-zero exit or a spawn error (`stage: 'error', progress: 0`). -/
def closeEmission : CloseKind → Option Nat
  | .success => some 100
  | .forcedKill => none
  | .nonzeroExit => some 0
  | .spawnError => some 0

/-- The sequence of progress values emitted over a run: one in-run emission
per recorded message count, then the terminal emission. -/
def runTrace (messageCounts : List Nat) (k : CloseKind) : List Nat :=
  messageCounts.map progressFormula ++ (closeEmission k).toList

/-! ## Definitions: cancellation (`cancelGeneration`) -/

/-- Observable state of the generation service: the `activeProcess` field,
the kill signals sent so far, and the progress values emitted so far. -/
structure GenState where
  activeProcess : Option Nat
  killedSignals : List (Nat × List Char)
  progressEvents : List Nat
deriving DecidableEq

/-- `cancelGeneration()`: `if (this.activeProcess) { kill('SIGTERM'); emit
progress 0; activeProcess = null }` — nothing at all happens when no process
is active. -/
def cancelGeneration (s : GenState) : GenState :=
  match s.activeProcess with
  | none => s
  | some pid =>
    { activeProcess := none
      killedSignals := (pid, "SIGTERM".toList) :: s.killedSignals
      progressEvents := 0 :: s.progressEvents }

/-- The close handler clears the process reference
(`this.activeProcess = null`) before anything else. -/
def closeClearsProcess (s : GenState) : GenState :=
  { s with activeProcess := none }

/-! ## Definitions: session status mapping (SessionManager) -/

/-- A persisted session row: its stored status string and the optional
last-viewed timestamp. -/
structure DbSessionRec where
  status : List Char
  lastViewedAt : Option Nat
deriving DecidableEq

/-- Modelled from the spec: `updateStatus` applies a status-mapping rule — an
external "completed" status request is translated to the persisted status
`stopped` (and, per the companion test, an external "error" to `failed`);
other statuses persist unchanged.  The SessionManager implementation is not
in the source tree; only its test exercises this mapping. -/
def persistStatus (external : List Char) : List Char :=
  if external = "completed".toList then "stopped".toList
  else if external = "error".toList then "failed".toList
  else external

/-- Modelled from the spec: a stored `stopped` status reads back as
`completed` when a last-viewed timestamp is present and as
`completed_unviewed` when it is absent; other stored statuses read back
unchanged. -/
def readBackStatus (r : DbSessionRec) : List Char :=
  if r.status = "stopped".toList then
    if r.lastViewedAt.isSome then "completed".toList else "completed_unviewed".toList
  else r.status

/-- Modelled from the spec: `updateStatus(sessionId, patch)` fails with
`SessionNotFound` (here `none`) on an unknown id; on a known session it
persists the mapped status and keeps the last-viewed timestamp. -/
def updateStatus (store : Nat → Option DbSessionRec) (sid : Nat)
    (external : List Char) : Option (Nat → Option DbSessionRec) :=
  match store sid with
  | none => none
  | some r =>
    some (fun x => if x = sid then some ⟨persistStatus external, r.lastViewedAt⟩ else store x)

/-! ## Definitions: worktree release (WorktreeManager) -/

/-- Modelled from the spec: `release(workingCopyPath)` / `removeWorktree`
invokes `git worktree remove <path> --force`; a failure of the underlying
tool on a non-existent or already-released path is caught and ignored, so
the call never surfaces an error (second component `false`) and leaves the
remaining worktrees as they were.  The WorktreeManager implementation is not
in the source tree; only its test exercises this behaviour. -/
def removeWorktree (worktrees : List (List Char)) (p : List Char) :
    List (List Char) × Bool :=
  (worktrees.filter (fun w => decide (w ≠ p)), false)

/-! ## Definitions: single-slot run-script resource (SessionManager) -/

/-- Operations on the ad-hoc run-script slot. -/
inductive ScriptOp where
  | runCmd (sessionId pid : Nat)
  | stopCmd

/-- Observable script-process state: the single current slot, the set of live
spawned script processes, and the processes killed so far. -/
structure ScriptState where
  current : Option Nat
  live : List Nat
  killed : List Nat
deriving DecidableEq

def initScriptState : ScriptState := ⟨none, [], []⟩

/-- Modelled from the spec: `runScript` first terminates a previous run
script still running, then spawns the new one into the single slot;
`stopScript` terminates the current one if any.  The SessionManager
implementation is not in the source tree; only its test exercises this
behaviour. -/
def scriptStep (s : ScriptState) : ScriptOp → ScriptState
  | .runCmd _ pid =>
    match s.current with
    | some prev =>
      ⟨some pid, pid :: s.live.filter (fun x => decide (x ≠ prev)), prev :: s.killed⟩
    | none => ⟨some pid, pid :: s.live, s.killed⟩
  | .stopCmd =>
    match s.current with
    | some prev => ⟨none, s.live.filter (fun x => decide (x ≠ prev)), prev :: s.killed⟩
    | none => s

def runScriptOps (ops : List ScriptOp) : ScriptState :=
  ops.foldl scriptStep initScriptState

/-! ## Definitions: fallback generation and promise resolution
(`enhanceWithSimpleLogic`, `enhanceWithClaudeStreaming`) -/

/-- Opening brace character. -/
def obr : Char := Char.ofNat 123

/-- Closing brace character. -/
def cbr : Char := Char.ofNat 125

/-- Split off the longest non-closing-brace preamble: the remainder either is
empty or starts with a closing brace. -/
def breakAtRBrace : List Char → List Char × List Char
  | [] => ([], [])
  | c :: cs =>
    if c = cbr then ([], c :: cs)
    else (c :: (breakAtRBrace cs).1, (breakAtRBrace cs).2)

/-- Try to match the regex pattern of two opening braces, one or more
non-closing-brace characters, then two closing braces at the head of the
input; on success return the input after the match. -/
def tryMatch : List Char → Option (List Char)
  | c1 :: c2 :: rest =>
    if c1 = obr ∧ c2 = obr then
      match breakAtRBrace rest with
      | ([], _) => none
      | (_ :: _, d1 :: d2 :: r2) => if d1 = cbr ∧ d2 = cbr then some r2 else none
      | (_ :: _, _) => none
    else none
  | _ => none

/-- The replacement text of `enhanceWithSimpleLogic`'s placeholder cleanup. -/
def filledText : List Char := "[TO BE FILLED]".toList

/-- Global left-to-right regex replacement of every unfilled placeholder by
`[TO BE FILLED]`, with structural fuel (`fuel ≥ length` always suffices:
every step consumes at least one character). -/
def cleanAux : Nat → List Char → List Char
  | 0, cs => cs
  | _ + 1, [] => []
  | fuel + 1, c :: cs =>
    match tryMatch (c :: cs) with
    | some rest => filledText ++ cleanAux fuel rest
    | none => c :: cleanAux fuel cs

/-- `enhanced.replace(placeholder-pattern-global, '[TO BE FILLED]')`. -/
def cleanPlaceholders (cs : List Char) : List Char := cleanAux cs.length cs

/-- Whether an unfilled placeholder occurs anywhere in the text. -/
def hasPlaceholder : List Char → Bool
  | [] => false
  | c :: cs => (tryMatch (c :: cs)).isSome || hasPlaceholder cs

/-- Whether `needle` occurs at the head of the text. -/
def startsWithChars : List Char → List Char → Bool
  | [], _ => true
  | _ :: _, [] => false
  | a :: as, b :: bs => (a == b) && startsWithChars as bs

/-- Whether `needle` occurs anywhere in the text (JavaScript `includes`). -/
def containsSub (needle : List Char) : List Char → Bool
  | [] => startsWithChars needle []
  | c :: hs => startsWithChars needle (c :: hs) || containsSub needle hs

/-- The attribution block appended by both `postProcessResult` and
`enhanceWithSimpleLogic` when the text does not already carry one; `extra`
stands for the duration/telemetry lines appended only on the post-process
path (empty on the fallback path). -/
def addAttribution (templateId : List Char) (codebase : Option (List Char))
    (extra : List Char) (text : List Char) : List Char :=
  if containsSub ("Template used:".toList) text then text
  else
    text ++ ("\n\n---\n\n*Template used: ".toList) ++ templateId ++ ("*".toList) ++
      (match codebase with
       | some cb => ("\n*Generated for codebase: ".toList) ++ cb ++ ("*".toList)
       | none => "\n*Generated for new project*".toList) ++ extra

/-- `enhanceWithSimpleLogic`: timestamp the heading (`stamp`, a parameter
because it depends on the wall clock), append attribution, then clean every
remaining placeholder — the cleanup is the final step. -/
def enhanceWithSimpleLogic (stamp : List Char → List Char) (templateId : List Char)
    (codebase : Option (List Char)) (template : List Char) : List Char :=
  cleanPlaceholders (addAttribution templateId codebase [] (stamp template))

/-- `postProcessResult`: timestamp the heading and append attribution (plus
duration/telemetry lines `extra`); no placeholder cleanup on this path. -/
def postProcessResult (stamp : List Char → List Char) (templateId : List Char)
    (codebase : Option (List Char)) (extra : List Char) (result : List Char) : List Char :=
  addAttribution templateId codebase extra (stamp result)

/-- A process-level terminal event: the `close` event with its exit code
(`none` models JavaScript `null`, i.e. killed by signal), or the `error`
event (spawn failure). -/
inductive ProcTermination where
  | closed (code : Option Int)
  | errored (message : List Char)

/-- Resolution of the `enhanceWithClaudeStreaming` promise.  The `setup`
parameter stands for the pre-spawn setup (the body of the outer `try`): only
its exception rejects the promise.  Every process-level terminal event
resolves: clean exit and forced kill with partial text resolve with the
post-processed text, everything else with the non-agent fallback. -/
def streamingOutcome (setup : Except (List Char) Unit) (stamp : List Char → List Char)
    (templateId : List Char) (codebase : Option (List Char)) (extra : List Char)
    (prompt output : List Char) (term : ProcTermination) :
    Except (List Char) (List Char) :=
  match setup with
  | .error e => .error e
  | .ok _ =>
    match term with
    | .errored _ => .ok (enhanceWithSimpleLogic stamp templateId codebase prompt)
    | .closed code =>
      match closeOutcome code output with
      | .completed t => .ok (postProcessResult stamp templateId codebase extra t)
      | .completedPartial t => .ok (postProcessResult stamp templateId codebase extra t)
      | .failedFallback => .ok (enhanceWithSimpleLogic stamp templateId codebase prompt)

/-! ## Definitions: concrete inputs used by the scenario witnesses -/

/-- A concrete JSON-ish line recognizer (a line decodes iff it opens with a
brace), standing in for `JSON.parse` in the scenario witness. -/
def jsonLineStub (l : List Char) : Option (List Char) :=
  if l.head? = some obr then some l else none

def wLine1 : List Char := obr :: ("\x22a\x22:1".toList ++ [cbr])

def wLine2 : List Char := obr :: ("\x22b\x22:2".toList ++ [cbr])

def wFront : List Char := obr :: "\x22c\x22".toList

def wBack : List Char := ":3".toList ++ [cbr]

def wLine3 : List Char := wFront ++ wBack

/-! ## Theorems: the streaming parser -/

theorem splitNl_ne_nil (s : List Char) : splitNl s ≠ [] := by
  cases s with
  | nil => simp [splitNl]
  | cons c rest =>
    simp only [splitNl]
    split
    · simp
    · split <;> simp

theorem lastSegD_cons₂ (x y : List Char) (ys : List (List Char)) :
    lastSegD (x :: y :: ys) = lastSegD (y :: ys) := rfl

theorem splitNl_cons_nl (rest : List Char) :
    splitNl ('\n' :: rest) = [] :: splitNl rest := by
  simp [splitNl]

theorem splitNl_cons_ne (c : Char) (rest : List Char) (hc : ¬c = '\n') :
    splitNl (c :: rest) =
      match splitNl rest with
      | [] => [[c]]
      | l :: ls => (c :: l) :: ls := by
  simp [splitNl, hc]

theorem splitNl_append (a b : List Char) :
    splitNl (a ++ b) = (splitNl a).dropLast ++ consHead (lastSegD (splitNl a)) (splitNl b) := by
  induction a with
  | nil =>
    cases h : splitNl b with
    | nil => exact absurd h (splitNl_ne_nil b)
    | cons l ls => simp [splitNl, consHead, lastSegD, h]
  | cons c a' ih =>
    by_cases hc : c = '\n'
    · subst hc
      rw [List.cons_append, splitNl_cons_nl, splitNl_cons_nl, ih]
      cases h : splitNl a' with
      | nil => exact absurd h (splitNl_ne_nil a')
      | cons l ls =>
        rw [List.dropLast_cons₂, lastSegD_cons₂, List.cons_append]
    · rw [List.cons_append, splitNl_cons_ne c _ hc, splitNl_cons_ne c _ hc, ih]
      cases h : splitNl a' with
      | nil => exact absurd h (splitNl_ne_nil a')
      | cons l ls =>
        cases ls with
        | nil =>
          cases hb : splitNl b with
          | nil => exact absurd hb (splitNl_ne_nil b)
          | cons m ms => simp [consHead, lastSegD]
        | cons m ms =>
          rw [List.dropLast_cons₂, List.cons_append, lastSegD_cons₂,
            List.dropLast_cons₂, List.cons_append, lastSegD_cons₂]

/-- The trailing (incomplete) segment of a split never contains a newline. -/
theorem lastSegD_splitNl_no_nl (s : List Char) :
    ∀ c ∈ lastSegD (splitNl s), c ≠ '\n' := by
  induction s with
  | nil => simp [splitNl, lastSegD]
  | cons c rest ih =>
    by_cases hc : c = '\n'
    · subst hc
      rw [splitNl_cons_nl]
      cases h : splitNl rest with
      | nil => exact absurd h (splitNl_ne_nil rest)
      | cons l ls =>
        rw [lastSegD_cons₂]
        rw [h] at ih
        exact ih
    · rw [splitNl_cons_ne c _ hc]
      cases h : splitNl rest with
      | nil => exact absurd h (splitNl_ne_nil rest)
      | cons l ls =>
        rw [h] at ih
        cases ls with
        | nil =>
          intro x hx
          rcases List.mem_cons.mp hx with h1 | h2
          · subst h1; exact hc
          · exact ih x (by simpa [lastSegD] using h2)
        | cons m ms =>
          rw [lastSegD_cons₂]
          intro x hx
          exact ih x (by rw [lastSegD_cons₂]; exact hx)

/-- Splitting a newline-free segment prepended to a stream merges it with the
stream's first segment. -/
theorem splitNl_nlfree_append (p y : List Char) (hp : ∀ c ∈ p, c ≠ '\n') :
    splitNl (p ++ y) = consHead p (splitNl y) := by
  induction p with
  | nil =>
    cases h : splitNl y with
    | nil => exact absurd h (splitNl_ne_nil y)
    | cons l ls => simp [consHead, h]
  | cons c p' ih =>
    have hc : ¬c = '\n' := hp c (List.mem_cons_self c p')
    have hp' : ∀ x ∈ p', x ≠ '\n' := fun x hx => hp x (List.mem_cons_of_mem c hx)
    rw [List.cons_append, splitNl_cons_ne c _ hc, ih hp']
    cases h : splitNl y with
    | nil => exact absurd h (splitNl_ne_nil y)
    | cons l ls => simp [consHead, h]

theorem lastSegD_append (X Y : List (List Char)) (hY : Y ≠ []) :
    lastSegD (X ++ Y) = lastSegD Y := by
  induction X with
  | nil => rfl
  | cons x X' ih =>
    cases hXY : X' ++ Y with
    | nil =>
      cases Y with
      | nil => exact absurd rfl hY
      | cons y ys => simp at hXY
    | cons z zs => rw [List.cons_append, hXY, lastSegD_cons₂, ← hXY, ih]

/-- A newline-free buffer splits into itself alone. -/
theorem splitNl_nlfree (buf : List Char) (hbuf : ∀ c ∈ buf, c ≠ '\n') :
    splitNl buf = [buf] := by
  have h := splitNl_nlfree_append buf [] hbuf
  simpa [splitNl, consHead] using h

theorem feedAll_go (chunks : List (List Char)) :
    ∀ (acc : List (List Char)) (buf : List Char), (∀ c ∈ buf, c ≠ '\n') →
      chunks.foldl feedStep (acc, buf) =
        (acc ++ (splitNl (buf ++ chunks.flatten)).dropLast,
          lastSegD (splitNl (buf ++ chunks.flatten))) := by
  induction chunks with
  | nil =>
    intro acc buf hbuf
    rw [List.foldl_nil, List.flatten_nil, List.append_nil, splitNl_nlfree buf hbuf]
    simp [lastSegD]
  | cons ch chs ih =>
    intro acc buf hbuf
    rw [List.foldl_cons]
    have hstep : feedStep (acc, buf) ch =
        (acc ++ (splitNl (buf ++ ch)).dropLast, lastSegD (splitNl (buf ++ ch))) := rfl
    rw [hstep, ih _ _ (lastSegD_splitNl_no_nl (buf ++ ch))]
    have hjoin : buf ++ (ch :: chs).flatten = (buf ++ ch) ++ chs.flatten := by
      rw [List.flatten_cons, ← List.append_assoc]
    rw [hjoin, splitNl_append (buf ++ ch) chs.flatten,
      ← splitNl_nlfree_append _ chs.flatten (lastSegD_splitNl_no_nl (buf ++ ch)),
      List.dropLast_append_of_ne_nil _ (splitNl_ne_nil _),
      lastSegD_append _ _ (splitNl_ne_nil _), List.append_assoc]

/-- Feeding chunks one at a time emits exactly the complete lines of their
concatenation, in order, and retains the trailing incomplete line. -/
theorem feedAll_eq (chunks : List (List Char)) :
    feedAll chunks =
      ((splitNl chunks.flatten).dropLast, lastSegD (splitNl chunks.flatten)) := by
  have h := feedAll_go chunks [] [] (by simp)
  simpa [feedAll] using h

/-- A newline-terminated, newline-free line at the head of the stream splits
off as one complete line. -/
theorem splitNl_line (l rest : List Char) (hl : ∀ c ∈ l, c ≠ '\n') :
    splitNl (l ++ '\n' :: rest) = l :: splitNl rest := by
  rw [splitNl_nlfree_append l _ hl, splitNl_cons_nl]
  simp [consHead]

/-- Claim C1: for every sequence of stdout chunks fed to the streaming parser,
the concatenated bytes are split on newline boundaries into discrete lines; an
incomplete trailing line is retained in the buffer across reads, neither
discarded nor emitted twice; in particular, feeding three newline-delimited
JSON lines where the third is split across two reads decodes exactly three
structured records, none duplicated, none dropped. -/
theorem claim_C1 {α : Type} (parse : List Char → Option α)
    (chunks : List (List Char)) (l1 l2 l3 p q : List Char)
    (hsplit : l3 = p ++ q)
    (hnl : ∀ c ∈ l1 ++ l2 ++ l3, c ≠ '\n')
    (hblank : trimChars l1 ≠ [] ∧ trimChars l2 ≠ [] ∧ trimChars l3 ≠ [])
    (hparse : (parse l1).isSome ∧ (parse l2).isSome ∧ (parse l3).isSome) :
    feedAll chunks =
      ((splitNl chunks.flatten).dropLast, lastSegD (splitNl chunks.flatten)) ∧
    (feedAll [l1 ++ '\n' :: (l2 ++ '\n' :: p), q ++ ['\n']]).1 = [l1, l2, l3] ∧
    (decodedRecords parse
      (feedAll [l1 ++ '\n' :: (l2 ++ '\n' :: p), q ++ ['\n']]).1).length = 3 := by
  have hl1 : ∀ c ∈ l1, c ≠ '\n' := fun c hc =>
    hnl c (by simp [List.mem_append, hc])
  have hl2 : ∀ c ∈ l2, c ≠ '\n' := fun c hc =>
    hnl c (by simp [List.mem_append, hc])
  have hl3 : ∀ c ∈ l3, c ≠ '\n' := fun c hc =>
    hnl c (by simp [List.mem_append, hc])
  have hflat :
      ([l1 ++ '\n' :: (l2 ++ '\n' :: p), q ++ ['\n']] : List (List Char)).flatten =
        l1 ++ '\n' :: (l2 ++ '\n' :: (l3 ++ '\n' :: [])) := by
    simp [hsplit]
  have hsplitfull :
      splitNl ([l1 ++ '\n' :: (l2 ++ '\n' :: p), q ++ ['\n']] : List (List Char)).flatten =
        [l1, l2, l3, []] := by
    rw [hflat, splitNl_line l1 _ hl1, splitNl_line l2 _ hl2, splitNl_line l3 _ hl3]
    simp [splitNl]
  have hlines : (feedAll [l1 ++ '\n' :: (l2 ++ '\n' :: p), q ++ ['\n']]).1 = [l1, l2, l3] := by
    rw [feedAll_eq, hsplitfull]
    simp
  refine ⟨feedAll_eq chunks, hlines, ?_⟩
  rw [hlines]
  obtain ⟨r1, hr1⟩ := Option.isSome_iff_exists.mp hparse.1
  obtain ⟨r2, hr2⟩ := Option.isSome_iff_exists.mp hparse.2.1
  obtain ⟨r3, hr3⟩ := Option.isSome_iff_exists.mp hparse.2.2
  simp [decodedRecords, hblank.1, hblank.2.1, hblank.2.2, hr1, hr2, hr3]

/-- Witness for C1: the scenario at concrete JSON lines, with the third line
split across the two reads. -/
theorem claim_C1_witness :
    feedAll ([] : List (List Char)) =
      ((splitNl ([] : List (List Char)).flatten).dropLast,
        lastSegD (splitNl ([] : List (List Char)).flatten)) ∧
    (feedAll [wLine1 ++ '\n' :: (wLine2 ++ '\n' :: wFront), wBack ++ ['\n']]).1 =
      [wLine1, wLine2, wLine3] ∧
    (decodedRecords jsonLineStub
      (feedAll [wLine1 ++ '\n' :: (wLine2 ++ '\n' :: wFront), wBack ++ ['\n']]).1).length = 3 :=
  claim_C1 jsonLineStub [] wLine1 wLine2 wLine3 wFront wBack rfl
    (by decide) (by decide) (by decide)

/-! ## Theorems: timeout policy -/

theorem killTimeFrom_le_total (ts : List Nat) :
    ∀ last, killTimeFrom last ts ≤ MAX_TOTAL_TIME_MS := by
  induction ts with
  | nil => intro last; exact min_le_right _ _
  | cons t ts ih =>
    intro last
    simp only [killTimeFrom]
    split
    · exact ih t
    · exact min_le_right _ _

/-- Claim C2: while a run is live, silence for `MAX_SILENCE_MS` (5 minutes)
forces termination, total elapsed time reaching `MAX_TOTAL_TIME_MS`
(60 minutes) forces termination independently of silence; a chunk received
before the kill deadline re-anchors the silence timer at its own arrival time
(reset on every chunk), while the total bound is the same constant at every
step (never reset). -/
theorem claim_C2 (last t : Nat) (ts : List Nat)
    (hreset : t < min (last + MAX_SILENCE_MS) MAX_TOTAL_TIME_MS) :
    killTimeFrom last [] = min (last + MAX_SILENCE_MS) MAX_TOTAL_TIME_MS ∧
    killTimeFrom last (t :: ts) = killTimeFrom t ts ∧
    killTimeFrom last ts ≤ MAX_TOTAL_TIME_MS ∧
    killTime [] = MAX_SILENCE_MS ∧
    MAX_SILENCE_MS = 300000 ∧ MAX_TOTAL_TIME_MS = 3600000 := by
  refine ⟨rfl, ?_, killTimeFrom_le_total ts last, by decide, rfl, rfl⟩
  simp only [killTimeFrom]
  rw [if_pos hreset]

/-- Witness for C2: a chunk at 5 ms resets the silence timer. -/
theorem claim_C2_witness :
    killTimeFrom 0 [] = min (0 + MAX_SILENCE_MS) MAX_TOTAL_TIME_MS ∧
    killTimeFrom 0 [5] = killTimeFrom 5 [] ∧
    killTimeFrom 0 [] ≤ MAX_TOTAL_TIME_MS ∧
    killTime [] = MAX_SILENCE_MS ∧
    MAX_SILENCE_MS = 300000 ∧ MAX_TOTAL_TIME_MS = 3600000 :=
  claim_C2 0 5 [] (by decide)

/-! ## Theorems: close handler outcome -/

/-- Claim C3: clean exit with code 0 yields Completed with the accumulated
text; forced termination (code `null` or `-15`) with nonzero accumulated text
yields Completed-Partial with that text; forced termination with zero
accumulated text yields the failed/fallback outcome. -/
theorem claim_C3 (code : Option Int) (output : List Char) :
    (code = some 0 → closeOutcome code output = .completed (trimChars output)) ∧
    ((code = none ∨ code = some (-15)) → trimChars output ≠ [] →
      closeOutcome code output = .completedPartial (trimChars output)) ∧
    ((code = none ∨ code = some (-15)) → trimChars output = [] →
      closeOutcome code output = .failedFallback) := by
  refine ⟨fun h => by simp [closeOutcome, h], ?_, ?_⟩
  · intro h hne
    have h0 : ¬code = some 0 := by rcases h with h | h <;> simp [h]
    simp [closeOutcome, h0, h, hne]
  · intro h he
    have h0 : ¬code = some 0 := by rcases h with h | h <;> simp [h]
    simp [closeOutcome, h0, h, he]

/-- Witness for C3: a SIGTERM kill with accumulated text "Hello" resolves as
Completed-Partial containing "Hello". -/
theorem claim_C3_witness :
    closeOutcome (some (-15)) ("Hello".toList) =
      .completedPartial (trimChars ("Hello".toList)) :=
  (claim_C3 (some (-15)) ("Hello".toList)).2.1 (Or.inr rfl) (by decide)

/-! ## Theorems: unique worktree-name generation -/

theorem charToDigit_digitChar (d : Nat) (hd : d < 10) :
    charToDigit (digitChar d) = d := by
  interval_cases d <;> rfl

theorem reprVal_append_digit (l : List Char) (c : Char) :
    reprVal (l ++ [c]) = reprVal l * 10 + charToDigit c := by
  simp [reprVal, List.foldl_append]

theorem reprVal_natReprAux (fuel : Nat) :
    ∀ n, n < fuel → reprVal (natReprAux fuel n) = n := by
  induction fuel with
  | zero => intro n h; omega
  | succ fuel ih =>
    intro n h
    by_cases h10 : n < 10
    · simp only [natReprAux, if_pos h10]
      simp [reprVal, charToDigit_digitChar n h10]
    · have hdiv : n / 10 < n := Nat.div_lt_self (by omega) (by norm_num)
      simp only [natReprAux, if_neg h10]
      rw [reprVal_append_digit, ih (n / 10) (by omega),
        charToDigit_digitChar (n % 10) (Nat.mod_lt _ (by norm_num))]
      omega

theorem natRepr_inj {m n : Nat} (h : natRepr m = natRepr n) : m = n := by
  have hm := reprVal_natReprAux (m + 1) m (Nat.lt_succ_self m)
  have hn := reprVal_natReprAux (n + 1) n (Nat.lt_succ_self n)
  rw [← hm, ← hn]
  unfold natRepr at h
  rw [h]

theorem candidateName_inj (base : List Char) {i j : Nat}
    (h : candidateName base i = candidateName base j) : i = j := by
  unfold candidateName at h
  have h1 := List.append_cancel_left h
  have h2 : natRepr i = natRepr j := by
    injection h1
  exact natRepr_inj h2

theorem exists_free_candidate (existing : List (List Char)) (base : List Char) (c : Nat) :
    ∃ k, k < existing.length + 1 ∧ candidateName base (c + k) ∉ existing := by
  by_contra hall
  push_neg at hall
  set L := (List.range (existing.length + 1)).map (fun k => candidateName base (c + k)) with hL
  have hnodup : L.Nodup := by
    refine List.Nodup.map ?_ (List.nodup_range _)
    intro a b hab
    have := candidateName_inj base hab
    omega
  have hsub : ∀ x ∈ L, x ∈ existing := by
    intro x hx
    rw [hL, List.mem_map] at hx
    obtain ⟨k, hk, rfl⟩ := hx
    exact hall k (List.mem_range.mp hk)
  have hcard : L.toFinset.card = existing.length + 1 := by
    rw [List.toFinset_card_of_nodup hnodup, hL, List.length_map, List.length_range]
  have hle : L.toFinset.card ≤ existing.toFinset.card :=
    Finset.card_le_card (fun x hx => List.mem_toFinset.mpr (hsub x (List.mem_toFinset.mp hx)))
  have hfin : existing.toFinset.card ≤ existing.length := existing.toFinset_card_le
  omega

theorem worktreeNameLoop_not_mem (existing : List (List Char)) (base : List Char) :
    ∀ fuel c current,
      (current ∉ existing ∨ ∃ k, k < fuel ∧ candidateName base (c + k) ∉ existing) →
      worktreeNameLoop existing base current c fuel ∉ existing := by
  intro fuel
  induction fuel with
  | zero =>
    intro c current h
    rcases h with h | ⟨k, hk, _⟩
    · simpa [worktreeNameLoop] using h
    · omega
  | succ fuel ih =>
    intro c current h
    by_cases hmem : current ∈ existing
    · simp only [worktreeNameLoop, if_pos hmem]
      rcases h with h | ⟨k, hk, hfree⟩
      · exact absurd hmem h
      · rcases k with _ | k'
        · exact ih (c + 1) (candidateName base c) (Or.inl (by simpa using hfree))
        · refine ih (c + 1) (candidateName base c) (Or.inr ⟨k', by omega, ?_⟩)
          rw [show c + 1 + k' = c + (k' + 1) by omega]
          exact hfree
    · simp only [worktreeNameLoop, if_neg hmem]
      exact hmem

/-- Claim C4: the name returned by `generateUniqueWorktreeName` is unique
among the existing worktree directories, and in particular a second
allocation from the same base name `foo` against a tree already holding `foo`
yields `foo-1`. -/
theorem claim_C4 (existing : List (List Char)) (base : List Char) :
    generateUniqueWorktreeName existing base ∉ existing ∧
    generateUniqueWorktreeName [] ("foo".toList) = "foo".toList ∧
    generateUniqueWorktreeName [("foo".toList)] ("foo".toList) = "foo-1".toList := by
  refine ⟨?_, by decide, by decide⟩
  obtain ⟨k, hk, hfree⟩ := exists_free_candidate existing base 1
  exact worktreeNameLoop_not_mem existing base (existing.length + 2) 1 base
    (Or.inr ⟨k, by omega, hfree⟩)

/-! ## Theorems: progress telemetry -/

/-- Counterexample for C5 as stated: in a failing run whose last-known in-run
progress was 12 (five decoded messages), the terminal emission of a non-zero
exit is 0, so the progress is changed rather than left at its last-known
value. -/
theorem claim_C5_counterexample :
    (runTrace [5] CloseKind.nonzeroExit).getLast? = some 0 ∧
    progressFormula 5 = 12 ∧
    ¬(runTrace [5] CloseKind.nonzeroExit).getLast? = some (progressFormula 5) := by
  decide

/-- Claim C5 (amended): the emitted progress percentage is a monotonically
non-decreasing function of the count of decoded messages and stays strictly
below 100 until the terminal event (in-run emissions cap at 80, the
finalizing emission is 90); at the terminal event it is set to exactly 100 on
success, while on failure it is reset to 0 by the non-zero-exit, spawn-error
and cancellation/timeout notifications, and not re-emitted at the close of a
forced kill. -/
theorem claim_C5 (mc mc' : Nat) (hmono : mc ≤ mc') :
    progressFormula mc ≤ progressFormula mc' ∧
    progressFormula mc < 100 ∧
    finalizingProgress < 100 ∧
    closeEmission .success = some 100 ∧
    closeEmission .nonzeroExit = some 0 ∧
    closeEmission .spawnError = some 0 ∧
    closeEmission .forcedKill = none ∧
    (cancelGeneration ⟨some 1, [], []⟩).progressEvents.head? = some 0 := by
  refine ⟨?_, ?_, by decide, rfl, rfl, rfl, rfl, rfl⟩
  · exact min_le_min
      (Nat.add_le_add_left (Nat.div_le_div_right (Nat.mul_le_mul_right _ hmono)) _) le_rfl
  · exact lt_of_le_of_lt (min_le_right _ _) (by norm_num)

/-- Witness for C5 (amended) at message counts 3 and 7. -/
theorem claim_C5_witness :
    progressFormula 3 ≤ progressFormula 7 ∧
    progressFormula 3 < 100 ∧
    finalizingProgress < 100 ∧
    closeEmission .success = some 100 ∧
    closeEmission .nonzeroExit = some 0 ∧
    closeEmission .spawnError = some 0 ∧
    closeEmission .forcedKill = none ∧
    (cancelGeneration ⟨some 1, [], []⟩).progressEvents.head? = some 0 :=
  claim_C5 3 7 (by decide)

/-! ## Theorems: cancellation -/

/-- Claim C6: cancelling after the process has already exited (the close
handler cleared `activeProcess`) is a no-op, not an error, and alters
nothing; cancelling a still-running process sends SIGTERM, whose resulting
exit code `-15` the close handler treats identically to any other forced
termination (code `null`). -/
theorem claim_C6 (s : GenState) (pid : Nat) :
    (s.activeProcess = none → cancelGeneration s = s) ∧
    cancelGeneration (closeClearsProcess s) = closeClearsProcess s ∧
    (s.activeProcess = some pid →
      (cancelGeneration s).activeProcess = none ∧
      (cancelGeneration s).killedSignals = (pid, "SIGTERM".toList) :: s.killedSignals) ∧
    (∀ output, closeOutcome (some (-15)) output = closeOutcome none output) := by
  refine ⟨?_, ?_, ?_, ?_⟩
  · intro h
    simp [cancelGeneration, h]
  · simp [cancelGeneration, closeClearsProcess]
  · intro h
    simp [cancelGeneration, h]
  · intro output
    simp [closeOutcome]

/-- Witness for C6: cancelling after close is a no-op on a concrete state,
and cancelling a concrete running state records the SIGTERM. -/
theorem claim_C6_witness :
    cancelGeneration (closeClearsProcess ⟨some 7, [], []⟩) = closeClearsProcess ⟨some 7, [], []⟩ ∧
    (cancelGeneration ⟨some 7, [], []⟩).activeProcess = none ∧
    (cancelGeneration ⟨some 7, [], []⟩).killedSignals = (7, "SIGTERM".toList) :: [] :=
  ⟨(claim_C6 ⟨some 7, [], []⟩ 7).2.1,
   ((claim_C6 ⟨some 7, [], []⟩ 7).2.2.1 rfl).1,
   ((claim_C6 ⟨some 7, [], []⟩ 7).2.2.1 rfl).2⟩

/-! ## Theorems: session status mapping -/

/-- Claim C7: for every known session, updating its status with the external
value "completed" persists the status `stopped`, after which the session
reads back as `completed_unviewed` when no last-viewed timestamp is present
and as `completed` when one is present. -/
theorem claim_C7 (store : Nat → Option DbSessionRec) (sid : Nat) (r : DbSessionRec)
    (hknown : store sid = some r) :
    ∃ store', updateStatus store sid ("completed".toList) = some store' ∧
      store' sid = some ⟨"stopped".toList, r.lastViewedAt⟩ ∧
      (r.lastViewedAt = none →
        readBackStatus ⟨"stopped".toList, r.lastViewedAt⟩ = "completed_unviewed".toList) ∧
      (∀ t, r.lastViewedAt = some t →
        readBackStatus ⟨"stopped".toList, r.lastViewedAt⟩ = "completed".toList) := by
  refine ⟨fun x => if x = sid then some ⟨persistStatus ("completed".toList), r.lastViewedAt⟩
    else store x, ?_, ?_, ?_, ?_⟩
  · simp [updateStatus, hknown]
  · show (if sid = sid then some (⟨persistStatus ("completed".toList), r.lastViewedAt⟩ : DbSessionRec)
      else store sid) = some ⟨"stopped".toList, r.lastViewedAt⟩
    rw [if_pos rfl]
    have hmap : persistStatus ("completed".toList) = "stopped".toList := by decide
    rw [hmap]
  · intro hnone
    simp [readBackStatus, hnone]
  · intro t ht
    simp [readBackStatus, ht]

/-- Witness for C7 on a concrete one-session store with no last-viewed
timestamp. -/
theorem claim_C7_witness :
    ∃ store', updateStatus
        (fun x => if x = 1 then some ⟨"running".toList, none⟩ else none) 1
        ("completed".toList) = some store' ∧
      store' 1 = some ⟨"stopped".toList, (none : Option Nat)⟩ ∧
      ((none : Option Nat) = none →
        readBackStatus ⟨"stopped".toList, none⟩ = "completed_unviewed".toList) ∧
      (∀ t, (none : Option Nat) = some t →
        readBackStatus ⟨"stopped".toList, none⟩ = "completed".toList) :=
  claim_C7 (fun x => if x = 1 then some ⟨"running".toList, none⟩ else none) 1
    ⟨"running".toList, none⟩ (by decide)

/-! ## Theorems: worktree release idempotence -/

/-- Claim C8: releasing a working copy never surfaces an error; releasing a
path that does not exist leaves the tree untouched, and a second release of
the same path is a no-op (idempotence). -/
theorem claim_C8 (worktrees : List (List Char)) (p : List Char)
    (habsent : p ∉ worktrees) :
    (removeWorktree worktrees p).2 = false ∧
    (removeWorktree worktrees p).1 = worktrees ∧
    (∀ ws : List (List Char), removeWorktree (removeWorktree ws p).1 p = removeWorktree ws p) := by
  refine ⟨rfl, ?_, ?_⟩
  · simp only [removeWorktree]
    refine List.filter_eq_self.mpr ?_
    intro a ha
    simp only [decide_eq_true_eq]
    intro hap
    exact habsent (hap ▸ ha)
  · intro ws
    simp only [removeWorktree, Prod.mk.injEq, and_true]
    refine List.filter_eq_self.mpr ?_
    intro a ha
    exact (List.mem_filter.mp ha).2

/-- Witness for C8: releasing a path absent from a concrete tree. -/
theorem claim_C8_witness :
    (removeWorktree [("a".toList)] ("b".toList)).2 = false ∧
    (removeWorktree [("a".toList)] ("b".toList)).1 = [("a".toList)] ∧
    (∀ ws : List (List Char),
      removeWorktree (removeWorktree ws ("b".toList)).1 ("b".toList) =
        removeWorktree ws ("b".toList)) :=
  claim_C8 [("a".toList)] ("b".toList) (by decide)

/-! ## Theorems: single-slot run-script resource -/

theorem scriptStep_inv (s : ScriptState) (op : ScriptOp)
    (h : s.live = s.current.toList) :
    (scriptStep s op).live = (scriptStep s op).current.toList := by
  cases op with
  | runCmd sid pid =>
    cases hc : s.current with
    | none =>
      rw [hc] at h
      simp [scriptStep, hc, h]
    | some prev =>
      rw [hc] at h
      simp [scriptStep, hc, h]
  | stopCmd =>
    cases hc : s.current with
    | none =>
      rw [hc] at h
      simp [scriptStep, hc, h]
    | some prev =>
      rw [hc] at h
      simp [scriptStep, hc, h]

theorem foldl_scriptStep_inv (ops : List ScriptOp) :
    ∀ s : ScriptState, s.live = s.current.toList →
      (ops.foldl scriptStep s).live = (ops.foldl scriptStep s).current.toList := by
  induction ops with
  | nil => intro s h; exact h
  | cons op ops ih =>
    intro s h
    rw [List.foldl_cons]
    exact ih _ (scriptStep_inv s op h)

/-- Claim C9: at most one ad-hoc run script is live at any instant
system-wide (after any sequence of run/stop operations), and starting a new
script while a previous one is running terminates the previous one and takes
over the single slot. -/
theorem claim_C9 (ops : List ScriptOp) (s : ScriptState) (sid pid prev : Nat)
    (hinv : s.live = s.current.toList) (hrun : s.current = some prev) :
    (runScriptOps ops).live.length ≤ 1 ∧
    (scriptStep s (.runCmd sid pid)).killed = prev :: s.killed ∧
    (scriptStep s (.runCmd sid pid)).current = some pid ∧
    (scriptStep s (.runCmd sid pid)).live = [pid] := by
  rw [hrun] at hinv
  refine ⟨?_, by simp [scriptStep, hrun], by simp [scriptStep, hrun],
    by simp [scriptStep, hrun, hinv]⟩
  have h := foldl_scriptStep_inv ops initScriptState (by rfl)
  rw [runScriptOps, h]
  cases (ops.foldl scriptStep initScriptState).current <;> simp

/-- Witness for C9: two consecutive run-script requests; the first process is
killed when the second starts. -/
theorem claim_C9_witness :
    (runScriptOps [.runCmd 1 10, .runCmd 2 20]).live.length ≤ 1 ∧
    (scriptStep ⟨some 10, [10], []⟩ (.runCmd 2 20)).killed = 10 :: [] ∧
    (scriptStep ⟨some 10, [10], []⟩ (.runCmd 2 20)).current = some 20 ∧
    (scriptStep ⟨some 10, [10], []⟩ (.runCmd 2 20)).live = [20] :=
  claim_C9 [.runCmd 1 10, .runCmd 2 20] ⟨some 10, [10], []⟩ 2 20 10 (by decide) (by decide)

/-! ## Theorems: placeholder cleanup and promise resolution -/

theorem breakAtRBrace_cons_rb (cs : List Char) :
    breakAtRBrace (cbr :: cs) = ([], cbr :: cs) := by
  simp [breakAtRBrace]

theorem breakAtRBrace_cons_ne (c : Char) (cs : List Char) (hc : ¬c = cbr) :
    breakAtRBrace (c :: cs) = (c :: (breakAtRBrace cs).1, (breakAtRBrace cs).2) := by
  simp [breakAtRBrace, hc]

theorem breakAtRBrace_append_eq (u : List Char) :
    (breakAtRBrace u).1 ++ (breakAtRBrace u).2 = u := by
  induction u with
  | nil => rfl
  | cons c cs ih =>
    by_cases hc : c = cbr
    · subst hc; rw [breakAtRBrace_cons_rb]; rfl
    · rw [breakAtRBrace_cons_ne c cs hc, List.cons_append, ih]

theorem breakAtRBrace_norb_append (p y : List Char) (hp : ∀ c ∈ p, c ≠ cbr) :
    breakAtRBrace (p ++ y) = (p ++ (breakAtRBrace y).1, (breakAtRBrace y).2) := by
  induction p with
  | nil => simp
  | cons c p' ih =>
    have hc : ¬c = cbr := hp c (List.mem_cons_self c p')
    have hp' : ∀ x ∈ p', x ≠ cbr := fun x hx => hp x (List.mem_cons_of_mem c hx)
    rw [List.cons_append, breakAtRBrace_cons_ne c _ hc, ih hp', List.cons_append]

theorem breakAtRBrace_fst_nil (u : List Char) (h : (breakAtRBrace u).1 = []) :
    u = [] ∨ ∃ w, u = cbr :: w := by
  cases u with
  | nil => exact Or.inl rfl
  | cons c cs =>
    by_cases hc : c = cbr
    · exact Or.inr ⟨cs, by rw [hc]⟩
    · rw [breakAtRBrace_cons_ne c cs hc] at h
      simp at h

theorem tryMatch_some_of (x r : List Char) (h1 : (breakAtRBrace x).1 ≠ [])
    (h2 : (breakAtRBrace x).2 = cbr :: cbr :: r) :
    tryMatch (obr :: obr :: x) = some r := by
  simp only [tryMatch, if_pos (And.intro rfl rfl)]
  cases hb : breakAtRBrace x with
  | mk fst snd =>
    rw [hb] at h1 h2
    simp only at h1 h2
    cases fst with
    | nil => exact absurd rfl h1
    | cons a as =>
      rw [h2]
      simp

theorem tryMatch_some_inv (u rest : List Char) (h : tryMatch u = some rest) :
    ∃ x, u = obr :: obr :: x ∧ (breakAtRBrace x).1 ≠ [] ∧
      (breakAtRBrace x).2 = cbr :: cbr :: rest := by
  match u with
  | [] => simp [tryMatch] at h
  | [c] => simp [tryMatch] at h
  | c1 :: c2 :: x =>
    by_cases hbr : c1 = obr ∧ c2 = obr
    · rw [tryMatch, if_pos hbr] at h
      refine ⟨x, by rw [hbr.1, hbr.2], ?_⟩
      cases hb : breakAtRBrace x with
      | mk fst snd =>
        rw [hb] at h
        cases fst with
        | nil => simp at h
        | cons a as =>
          cases snd with
          | nil => simp at h
          | cons d1 ds =>
            cases ds with
            | nil => simp at h
            | cons d2 r2 =>
              simp only at h
              by_cases hd : d1 = cbr ∧ d2 = cbr
              · rw [if_pos hd] at h
                obtain rfl : r2 = rest := by simpa using h
                exact ⟨by simp, by simp [hd.1, hd.2]⟩
              · rw [if_neg hd] at h
                simp at h
    · rw [tryMatch, if_neg hbr] at h
      simp at h

theorem tryMatch_length (cs rest : List Char) (h : tryMatch cs = some rest) :
    rest.length < cs.length := by
  obtain ⟨x, rfl, h1, h2⟩ := tryMatch_some_inv cs rest h
  have hlen : (breakAtRBrace x).1.length + (breakAtRBrace x).2.length = x.length := by
    rw [← List.length_append, breakAtRBrace_append_eq]
  have h1len : 1 ≤ (breakAtRBrace x).1.length := by
    cases hb : (breakAtRBrace x).1 with
    | nil => exact absurd hb h1
    | cons a as => simp
  have h2len : (breakAtRBrace x).2.length = rest.length + 2 := by
    rw [h2]; simp
  simp only [List.length_cons]
  omega

theorem tryMatch_none_of_ne_obr (c : Char) (u : List Char) (hc : ¬c = obr) :
    tryMatch (c :: u) = none := by
  cases u with
  | nil => rfl
  | cons d u' =>
    rw [tryMatch, if_neg (fun hand => hc hand.1)]

theorem cleanAux_nil (fuel : Nat) : cleanAux fuel [] = [] := by
  cases fuel <;> rfl

theorem cleanAux_congr (f1 : Nat) :
    ∀ f2 (cs : List Char), cs.length ≤ f1 → cs.length ≤ f2 →
      cleanAux f1 cs = cleanAux f2 cs := by
  induction f1 with
  | zero =>
    intro f2 cs h1 _
    have : cs = [] := List.length_eq_zero.mp (Nat.le_zero.mp h1)
    subst this
    rw [cleanAux_nil, cleanAux_nil]
  | succ f1 ih =>
    intro f2 cs h1 h2
    cases cs with
    | nil => rw [cleanAux_nil, cleanAux_nil]
    | cons c cs' =>
      cases f2 with
      | zero => simp at h2
      | succ f2' =>
        cases hm : tryMatch (c :: cs') with
        | some rest =>
          have hr := tryMatch_length _ _ hm
          simp only [List.length_cons] at h1 h2 hr
          simp only [cleanAux, hm]
          rw [ih f2' rest (by omega) (by omega)]
        | none =>
          simp only [List.length_cons] at h1 h2
          simp only [cleanAux, hm]
          rw [ih f2' cs' (by omega) (by omega)]

theorem clean_nil : cleanPlaceholders [] = [] := rfl

theorem clean_cons_some (c : Char) (cs rest : List Char)
    (hm : tryMatch (c :: cs) = some rest) :
    cleanPlaceholders (c :: cs) = filledText ++ cleanPlaceholders rest := by
  have hr := tryMatch_length _ _ hm
  simp only [List.length_cons] at hr
  simp only [cleanPlaceholders, List.length_cons, cleanAux, hm]
  rw [cleanAux_congr cs.length rest.length rest (by omega) le_rfl]

theorem clean_cons_none (c : Char) (cs : List Char)
    (hm : tryMatch (c :: cs) = none) :
    cleanPlaceholders (c :: cs) = c :: cleanPlaceholders cs := by
  simp only [cleanPlaceholders, List.length_cons, cleanAux, hm]

theorem filledText_no_obr : ∀ c ∈ filledText, c ≠ obr := by decide

theorem filledText_no_rb : ∀ c ∈ filledText, c ≠ cbr := by decide

theorem clean_head_ne (cs : List Char) (x : Char)
    (h : (cleanPlaceholders cs).head? = some x) (hx : x ≠ '[') :
    cs.head? = some x := by
  cases cs with
  | nil => simp [clean_nil] at h
  | cons c cs' =>
    cases hm : tryMatch (c :: cs') with
    | some rest =>
      rw [clean_cons_some c cs' rest hm] at h
      have : x = '[' := by
        have hfill : filledText = '[' :: "TO BE FILLED]".toList := by decide
        rw [hfill] at h
        simpa using h.symm
      exact absurd this hx
    | none =>
      rw [clean_cons_none c cs' hm] at h
      simpa using h

theorem hasPlaceholder_append_noobr (p X : List Char) (hp : ∀ c ∈ p, c ≠ obr) :
    hasPlaceholder (p ++ X) = hasPlaceholder X := by
  induction p with
  | nil => rfl
  | cons a p' ih =>
    have ha : ¬a = obr := hp a (List.mem_cons_self a p')
    have hp' : ∀ c ∈ p', c ≠ obr := fun c hc => hp c (List.mem_cons_of_mem a hc)
    rw [List.cons_append]
    show ((tryMatch (a :: (p' ++ X))).isSome || hasPlaceholder (p' ++ X)) = hasPlaceholder X
    rw [tryMatch_none_of_ne_obr a _ ha, ih hp']
    simp

/-- If the cleaned text still opens a double closing brace at the scan
point, then so did the original text. -/
theorem ddPair_clean (n : Nat) :
    ∀ t : List Char, t.length ≤ n →
      (∃ r, (breakAtRBrace (cleanPlaceholders t)).2 = cbr :: cbr :: r) →
      ∃ r, (breakAtRBrace t).2 = cbr :: cbr :: r := by
  induction n with
  | zero =>
    intro t ht h
    have : t = [] := List.length_eq_zero.mp (Nat.le_zero.mp ht)
    subst this
    simp [clean_nil, breakAtRBrace] at h
  | succ n ih =>
    intro t ht h
    cases t with
    | nil => simp [clean_nil, breakAtRBrace] at h
    | cons c cs =>
      have hlen : cs.length ≤ n := by
        simp only [List.length_cons] at ht
        omega
      cases hm : tryMatch (c :: cs) with
      | some rest =>
        obtain ⟨x, hx, h1, h2⟩ := tryMatch_some_inv _ _ hm
        obtain ⟨hc, hcs⟩ : c = obr ∧ cs = obr :: x := by
          injection hx with hx1 hx2
          exact ⟨hx1, hx2⟩
        have hobr_ne : ¬obr = cbr := by decide
        refine ⟨rest, ?_⟩
        rw [hc, hcs, breakAtRBrace_cons_ne obr (obr :: x) hobr_ne]
        simp only
        rw [breakAtRBrace_cons_ne obr x hobr_ne]
        simp only
        exact h2
      | none =>
        rw [clean_cons_none c cs hm] at h
        by_cases hc : c = cbr
        · subst hc
          rw [breakAtRBrace_cons_rb] at h
          obtain ⟨r, hr⟩ := h
          simp only at hr
          have hclean : cleanPlaceholders cs = cbr :: r := by
            injection hr
          have hhead : cs.head? = some cbr :=
            clean_head_ne cs cbr (by rw [hclean]; rfl) (by decide)
          obtain ⟨cs₂, rfl⟩ : ∃ cs₂, cs = cbr :: cs₂ := by
            cases cs with
            | nil => simp at hhead
            | cons d ds =>
              have hd : d = cbr := by simpa using hhead
              exact ⟨ds, by rw [hd]⟩
          exact ⟨cs₂, by rw [breakAtRBrace_cons_rb]⟩
        · rw [breakAtRBrace_cons_ne c _ hc] at h
          simp only at h
          obtain ⟨r, hr⟩ := ih cs hlen h
          exact ⟨r, by rw [breakAtRBrace_cons_ne c _ hc]; simpa using hr⟩

theorem hasPlaceholder_clean (n : Nat) :
    ∀ t : List Char, t.length ≤ n → hasPlaceholder (cleanPlaceholders t) = false := by
  induction n with
  | zero =>
    intro t ht
    have : t = [] := List.length_eq_zero.mp (Nat.le_zero.mp ht)
    subst this
    rw [clean_nil]
    rfl
  | succ n ih =>
    intro t ht
    cases t with
    | nil => rw [clean_nil]; rfl
    | cons c cs =>
      have hlen : cs.length ≤ n := by
        simp only [List.length_cons] at ht
        omega
      cases hm : tryMatch (c :: cs) with
      | some rest =>
        have hr := tryMatch_length _ _ hm
        rw [clean_cons_some c cs rest hm,
          hasPlaceholder_append_noobr filledText _ filledText_no_obr]
        refine ih rest ?_
        simp only [List.length_cons] at hr
        omega
      | none =>
        rw [clean_cons_none c cs hm]
        show ((tryMatch (c :: cleanPlaceholders cs)).isSome ||
          hasPlaceholder (cleanPlaceholders cs)) = false
        rw [ih cs hlen]
        suffices hnone : tryMatch (c :: cleanPlaceholders cs) = none by simp [hnone]
        by_cases hco : c = obr
        · subst hco
          cases hsome : tryMatch (obr :: cleanPlaceholders cs) with
          | none => rfl
          | some r =>
            exfalso
            obtain ⟨x, hx, h1, h2⟩ := tryMatch_some_inv _ _ hsome
            have hcleq : cleanPlaceholders cs = obr :: x := by
              have htl := congrArg List.tail hx
              simpa using htl
            have hcs_head : cs.head? = some obr :=
              clean_head_ne cs obr (by rw [hcleq]; rfl) (by decide)
            obtain ⟨cs₂, rfl⟩ : ∃ cs₂, cs = obr :: cs₂ := by
              cases cs with
              | nil => simp at hcs_head
              | cons d ds =>
                have hd : d = obr := by simpa using hcs_head
                exact ⟨ds, by rw [hd]⟩
            have hmcs : tryMatch (obr :: cs₂) = none := by
              cases hmc : tryMatch (obr :: cs₂) with
              | none => rfl
              | some rr =>
                exfalso
                have hcl := clean_cons_some obr cs₂ rr hmc
                rw [hcl] at hcleq
                have hbad : '[' = obr := by
                  have hfill : filledText = '[' :: "TO BE FILLED]".toList := by decide
                  rw [hfill] at hcleq
                  have hhd := congrArg List.head? hcleq
                  simpa using hhd
                exact absurd hbad (by decide)
            have hclean2 : cleanPlaceholders (obr :: cs₂) = obr :: cleanPlaceholders cs₂ :=
              clean_cons_none obr cs₂ hmcs
            have hxeq : x = cleanPlaceholders cs₂ := by
              rw [hclean2] at hcleq
              have htl := congrArg List.tail hcleq
              simpa using htl.symm
            subst hxeq
            obtain ⟨r', hr'⟩ := ddPair_clean cs₂.length cs₂ le_rfl ⟨r, h2⟩
            have hfst : (breakAtRBrace cs₂).1 ≠ [] := by
              intro hnil
              rcases breakAtRBrace_fst_nil cs₂ hnil with rfl | ⟨w, rfl⟩
              · simp [breakAtRBrace] at hr'
              · have hmw : tryMatch (cbr :: w) = none :=
                  tryMatch_none_of_ne_obr cbr w (by decide)
                have hclw : cleanPlaceholders (cbr :: w) = cbr :: cleanPlaceholders w :=
                  clean_cons_none cbr w hmw
                rw [hclw, breakAtRBrace_cons_rb] at h1
                simp at h1
            have hms := tryMatch_some_of cs₂ r' hfst hr'
            rw [hm] at hms
            simp at hms
        · exact tryMatch_none_of_ne_obr c _ hco

/-- The placeholder cleanup leaves no unfilled placeholder behind. -/
theorem cleanPlaceholders_no_placeholder (cs : List Char) :
    hasPlaceholder (cleanPlaceholders cs) = false :=
  hasPlaceholder_clean cs.length cs le_rfl

/-- Claim C10: the streaming enhancement promise never rejects because of a
process-level failure — spawn error, non-zero exit, and forced kill with no
accumulated text all resolve with the fallback string generated without the
agent, in which every remaining placeholder is replaced by `[TO BE FILLED]`;
rejection occurs only when the pre-spawn setup itself threw, so a caller
cannot distinguish agent failure from success by whether the promise
rejects. -/
theorem claim_C10 (setup : Except (List Char) Unit) (stamp : List Char → List Char)
    (templateId : List Char) (codebase : Option (List Char)) (extra : List Char)
    (prompt output msg : List Char) (code : Int)
    (hok : setup = .ok ()) (hcode : code ≠ 0 ∧ code ≠ -15) :
    streamingOutcome setup stamp templateId codebase extra prompt output (.errored msg) =
      .ok (enhanceWithSimpleLogic stamp templateId codebase prompt) ∧
    streamingOutcome setup stamp templateId codebase extra prompt output
        (.closed (some code)) =
      .ok (enhanceWithSimpleLogic stamp templateId codebase prompt) ∧
    (trimChars output = [] →
      streamingOutcome setup stamp templateId codebase extra prompt output (.closed none) =
        .ok (enhanceWithSimpleLogic stamp templateId codebase prompt)) ∧
    hasPlaceholder (enhanceWithSimpleLogic stamp templateId codebase prompt) = false ∧
    (∀ term, ∃ s,
      streamingOutcome setup stamp templateId codebase extra prompt output term = .ok s) ∧
    (∀ st term e,
      streamingOutcome st stamp templateId codebase extra prompt output term = .error e →
        st = .error e) := by
  subst hok
  refine ⟨rfl, ?_, ?_, cleanPlaceholders_no_placeholder _, ?_, ?_⟩
  · have h1 : ¬(some code = (some 0 : Option Int)) := by simpa using hcode.1
    have h2 : ¬((some code : Option Int) = none ∨ some code = some (-15)) := by
      simpa using hcode.2
    simp [streamingOutcome, closeOutcome, h1, h2, hcode.2]
  · intro hempty
    simp [streamingOutcome, closeOutcome, hempty]
  · intro term
    cases term with
    | errored m => exact ⟨_, rfl⟩
    | closed cd =>
      cases h : closeOutcome cd output with
      | completed t =>
        exact ⟨postProcessResult stamp templateId codebase extra t,
          by simp [streamingOutcome, h]⟩
      | completedPartial t =>
        exact ⟨postProcessResult stamp templateId codebase extra t,
          by simp [streamingOutcome, h]⟩
      | failedFallback =>
        exact ⟨enhanceWithSimpleLogic stamp templateId codebase prompt,
          by simp [streamingOutcome, h]⟩
  · intro st term e herr
    cases st with
    | error e' =>
      have he : e' = e := by simpa [streamingOutcome] using herr
      rw [he]
    | ok u =>
      exfalso
      cases u
      cases term with
      | errored m => simp [streamingOutcome] at herr
      | closed cd =>
        cases h : closeOutcome cd output <;> simp [streamingOutcome, h] at herr

/-- Witness for C10 at a concrete non-zero exit code, empty output and
concrete fallback inputs. -/
theorem claim_C10_witness :
    streamingOutcome (.ok ()) id ("t".toList) none [] ("p".toList) [] (.errored []) =
      .ok (enhanceWithSimpleLogic id ("t".toList) none ("p".toList)) ∧
    streamingOutcome (.ok ()) id ("t".toList) none [] ("p".toList) [] (.closed (some 7)) =
      .ok (enhanceWithSimpleLogic id ("t".toList) none ("p".toList)) ∧
    (trimChars [] = [] →
      streamingOutcome (.ok ()) id ("t".toList) none [] ("p".toList) [] (.closed none) =
        .ok (enhanceWithSimpleLogic id ("t".toList) none ("p".toList))) ∧
    hasPlaceholder (enhanceWithSimpleLogic id ("t".toList) none ("p".toList)) = false ∧
    (∀ term, ∃ s,
      streamingOutcome (.ok ()) id ("t".toList) none [] ("p".toList) [] term = .ok s) ∧
    (∀ st term e,
      streamingOutcome st id ("t".toList) none [] ("p".toList) [] term = .error e →
        st = .error e) :=
  claim_C10 (.ok ()) id ("t".toList) none [] ("p".toList) [] [] 7 rfl (by decide)
